import Mathlib

/-!
Shallow embedding of the build orchestrator of `src/lib/build.rs` (yabs).

Paths are abstracted as natural-number identifiers.  A `Target` identifies one
source file; its object path is a pure function of the source path, supplied as
an `objectOf` parameter (the derivation itself lives outside `src/`).  The
filesystem is an oracle: an existence predicate and a modified-time map.
-/

/-- One compilation unit, identified by its source path.  The real `Target`
lives in the `desc` module (outside `src/`); per the spec its ordering and
equality are by source identity and its object path is a pure function of the
source path, which we pass around as `objectOf`. -/
structure Target where
  source : Nat
deriving DecidableEq, Repr

instance : LinearOrder Target :=
  LinearOrder.lift' Target.source (fun a b h => by cases a; cases b; simpa using h)

/-- Filesystem oracle: which paths exist, and the modified time that
`fs::metadata(p)?.modified()?` reports (`none` models an I/O failure of the
metadata/modified chain). -/
structure FS where
  pathExists : Nat → Bool
  modified : Nat → Option Nat

/-- The error type, restricted to the variants the modelled functions produce.
`ioError` stands for any propagated I/O failure. -/
inductive YabsErr where
  | ioError
  | targetNotFound (kind : String) (name : Nat)
  | noAssumedToml (original : List Nat)
deriving DecidableEq, Repr

/-- Insertion into a `BTreeSet` iterated in ascending order: the set is kept as
a strictly sorted list. -/
def btreeInsert (t : Target) : List Target → List Target
  | [] => [t]
  | x :: xs =>
    if t < x then t :: x :: xs
    else if t = x then x :: xs
    else x :: btreeInsert t xs

/-- Models `BuildFile::build_object_queue`.  `file_mod_map` is the discovered
source-to-mtime map (an association list), `target_path` is
`build_target.path()`.  When the output artifact exists, each loop iteration
re-reads `fs::metadata(&target_path)?.modified()?`; a `none` there aborts with
an error, mirroring the `?` operators.  The returned list is the `BTreeSet`
iterated in ascending order. -/
def build_object_queue (fs : FS) (objectOf : Nat → Nat)
    (file_mod_map : List (Target × Nat)) (target_path : Nat) :
    Except YabsErr (List Target) :=
  if fs.pathExists target_path then
    file_mod_map.foldlM
      (fun queue tm =>
        match fs.modified target_path with
        | none => Except.error YabsErr.ioError
        | some out =>
          Except.ok
            (if out < tm.2 || !(fs.pathExists (objectOf tm.1.source)) then
              btreeInsert tm.1 queue
            else queue))
      ([] : List Target)
  else
    Except.ok
      (file_mod_map.foldl
        (fun queue tm =>
          if !(fs.pathExists (objectOf tm.1.source)) then btreeInsert tm.1 queue
          else queue)
        [])

/-!
The scheduler `BuildFile::run_job_queue`.  Outcomes of the external process
primitives are oracles: `spawnOk t` tells whether `spawn_build_object` succeeds
for target `t`, `exitOk t` whether `Job::yield_self` (blocking wait, failing on
nonzero exit or wait error) succeeds.  The observable behaviour is the trace of
spawn and wait events, the vector of jobs left in `job_processes` when the
function returns (jobs spawned but never waited), and the error, if any.
-/

/-- An observable scheduler action: a compile job was spawned (and its command
logged), or a job was waited on via `yield_self` (also when the wait reports a
failure: the process was reaped either way). -/
inductive SchedEvent where
  | spawn (t : Target)
  | wait (t : Target)
deriving DecidableEq, Repr

/-- The error `run_job_queue` propagates: `spawn_build_object` failed for `t`,
or `yield_self` failed for `t` (nonzero exit or wait error). -/
inductive SchedError where
  | spawnFail (t : Target)
  | waitFail (t : Target)
deriving DecidableEq, Repr

/-- The drain loop `while !job_processes.is_empty() { if let Some(mut job) =
job_processes.pop() { job.yield_self()?; } }` viewed from the top of the stack:
the argument is `job_processes.reverse`, so that `Vec::pop` (removal at the
end) is removal at the head.  On a failing `yield_self` the `?` returns at
once; the jobs still in the vector (`rest.reverse`, restored to vector order)
are left behind un-awaited.  Returns (events, remaining vector, error). -/
def drainStack (exitOk : Target → Bool) :
    List Target → List SchedEvent × List Target × Option SchedError
  | [] => ([], [], none)
  | job :: rest =>
    if exitOk job then
      let r := drainStack exitOk rest
      (SchedEvent.wait job :: r.1, r.2.1, r.2.2)
    else
      ([SchedEvent.wait job], rest.reverse, some (SchedError.waitFail job))

/-- The drain loop applied to `job_processes` in vector order. -/
def drainJobs (exitOk : Target → Bool) (job_processes : List Target) :
    List SchedEvent × List Target × Option SchedError :=
  drainStack exitOk job_processes.reverse

/-- Models the loop of `BuildFile::run_job_queue`.  `fuel` bounds the number of
outer-loop iterations; `none` means the loop did not finish within `fuel`
iterations.  `job_queue.pop()` removes from the end of the vector
(`getLast?`/`dropLast`); a successful spawn pushes onto `job_processes`; when
`job_processes.len() < jobs` fails, the whole in-flight vector is drained
before the outer condition is re-checked. -/
def runJobQueueAux (spawnOk exitOk : Target → Bool) (jobs : Nat) :
    Nat → List Target → List Target →
    Option (List SchedEvent × List Target × Option SchedError)
  | 0, _, _ => none
  | fuel + 1, job_queue, job_processes =>
    if job_queue.isEmpty then
      some (drainJobs exitOk job_processes)
    else if job_processes.length < jobs then
      match job_queue.getLast? with
      | none => runJobQueueAux spawnOk exitOk jobs fuel job_queue job_processes
      | some target =>
        if spawnOk target then
          match runJobQueueAux spawnOk exitOk jobs fuel job_queue.dropLast
              (job_processes ++ [target]) with
          | none => none
          | some (evs, rem, err) => some (SchedEvent.spawn target :: evs, rem, err)
        else
          some ([], job_processes, some (SchedError.spawnFail target))
    else
      match drainJobs exitOk job_processes with
      | (evs, rem, some e) => some (evs, rem, some e)
      | (evs, _, none) =>
        match runJobQueueAux spawnOk exitOk jobs fuel job_queue [] with
        | none => none
        | some (evs2, rem2, err2) => some (evs ++ evs2, rem2, err2)

/-- `BuildFile::run_job_queue` on queue `job_queue` with worker budget `jobs`,
started with an empty in-flight vector.  `2 * job_queue.length + 2` outer
iterations always suffice when `jobs ≥ 1` (proved below), so a `none` result
means the loop genuinely does not terminate. -/
def run_job_queue (spawnOk exitOk : Target → Bool) (job_queue : List Target)
    (jobs : Nat) :
    Option (List SchedEvent × List Target × Option SchedError) :=
  runJobQueueAux spawnOk exitOk jobs (2 * job_queue.length + 2) job_queue []

/-- Running in-flight bound check over an event trace: `cur` is the number of
in-flight processes; every spawn must keep it within `W`. -/
def inFlightLe (W : Nat) : Nat → List SchedEvent → Bool
  | _, [] => true
  | cur, SchedEvent.spawn _ :: rest => decide (cur + 1 ≤ W) && inFlightLe W (cur + 1) rest
  | cur, SchedEvent.wait _ :: rest => inFlightLe W (cur - 1) rest

/-!
Declared build products and the `BuildFile` aggregate.  `Binary` and `Library`
live in the `desc` module (outside `src/`); the fields and helpers below are
the ones the code under `src/` uses, modelled from the spec.
-/

/-- Modelled from the spec: `Binary` (outside `src/`) is `{name, output_path =
name}`. -/
structure Binary where
  name : Nat
deriving DecidableEq, Repr

/-- `impl Buildable for Binary`: `PathBuf::from(self.name())`. -/
def Binary.path (b : Binary) : Nat := b.name

/-- Modelled from the spec: `Library` (outside `src/`) is `{name, wants_static,
wants_dynamic}`; its static/dynamic artifact filenames are derived from the
name by a platform convention, passed below as `staticName`/`dynamicName`. -/
structure Library where
  name : Nat
  wants_static : Bool
  wants_dynamic : Bool
deriving DecidableEq, Repr

/-- Modelled from the spec: the slice of `ProjectDesc` (outside `src/`) that
the code under `src/` reads — the discovered source-to-mtime map. -/
structure ProjectDesc where
  file_mod_map : List (Target × Nat)
deriving DecidableEq, Repr

/-- The `BuildFile` aggregate of `src/lib/build.rs`: project description plus
optional binary and library declarations. -/
structure BuildFile where
  project : ProjectDesc
  binaries : Option (List Binary)
  libraries : Option (List Library)
deriving DecidableEq, Repr

/-- Modelled from the spec: `ProjectDesc::object_list_as_string` is outside
`src/`.  Per the spec it composes the joined object-path list of all discovered
targets, "excluding objects solely attributable to the given binaries"; with no
exclusion list it performs no exclusion.  Which sources a declared binary draws
on is the oracle `lists`; an object is solely attributable to the excluded
binaries when some excluded binary lists its source and every declared binary
listing its source is excluded.  `allBins` are the declared binaries of the
project, against which sole attribution is decided. -/
def object_list_as_string (proj : ProjectDesc) (objectOf : Nat → Nat)
    (allBins : List Binary) (lists : Binary → Nat → Bool)
    (excl : Option (List Binary)) : List Nat :=
  match excl with
  | none => proj.file_mod_map.map (fun tm => objectOf tm.1.source)
  | some ex =>
    (proj.file_mod_map.filter (fun tm =>
      !(ex.any (fun b => lists b tm.1.source) &&
        allBins.all (fun b => !lists b tm.1.source || decide (b ∈ ex))))).map
      (fun tm => objectOf tm.1.source)

/-- The spec's exclusion notion, stated per source file: the source is
exclusively attributable to declared binaries other than `binary` (some other
declared binary lists it, and every declared binary listing it is another
one, i.e. has a path different from `binary`'s). -/
def exclusivelyOthers (bins : List Binary) (lists : Binary → Nat → Bool)
    (binary : Binary) (src : Nat) : Bool :=
  bins.any (fun b => decide (b.path ≠ binary.path) && lists b src) &&
  bins.all (fun b => !lists b src || decide (b.path ≠ binary.path))

/-- Models the object-list selection of `BuildFile::build_binary`: with exactly
one declared binary the exclusion argument is `None`; otherwise it is the
declared binaries whose path differs from the binary being linked.  `none`
models the panic of `self.binaries.as_ref().unwrap()` when no binaries are
declared; the surrounding link-command formatting is not modelled. -/
def build_binary_object_list (bf : BuildFile) (objectOf : Nat → Nat)
    (lists : Binary → Nat → Bool) (binary : Binary) : Option (List Nat) :=
  match bf.binaries with
  | none => none
  | some bins =>
    some
      (if bins.length = 1 then
        object_list_as_string bf.project objectOf bins lists none
      else
        object_list_as_string bf.project objectOf bins lists
          (some (bins.filter (fun bin => decide (bin.path ≠ binary.path)))))

/-- Models `BuildFile::build_binary_with_name`.  `buildResult` is the outcome
of the `build_object_queue`/`run_job_queue`/`build_binary` pipeline for the
found binary (its errors propagate via `?`).  The returned value records which
binary was built (`none`: the function returned `Ok(())` without building
anything). -/
def build_binary_with_name (bf : BuildFile)
    (buildResult : Binary → Except YabsErr Unit) (name : Nat) :
    Except YabsErr (Option Binary) :=
  match bf.binaries with
  | some binaries =>
    match binaries.find? (fun bin => bin.name == name) with
    | some binary =>
      match buildResult binary with
      | Except.error e => Except.error e
      | Except.ok _ => Except.ok (some binary)
    | none => Except.ok none
  | none => Except.error (YabsErr.targetNotFound "binary" name)

/-- Models `BuildFile::build_library_with_name`, same shape as
`build_binary_with_name` with the library pipeline. -/
def build_library_with_name (bf : BuildFile)
    (buildResult : Library → Except YabsErr Unit) (name : Nat) :
    Except YabsErr (Option Library) :=
  match bf.libraries with
  | some libraries =>
    match libraries.find? (fun lib => lib.name == name) with
    | some library =>
      match buildResult library with
      | Except.error e => Except.error e
      | Except.ok _ => Except.ok (some library)
    | none => Except.ok none
  | none => Except.error (YabsErr.targetNotFound "library" name)

/-!
`BuildFile::clean`.  The filesystem state is the existence predicate alone;
`removeOk p` tells whether `fs::remove_file(p)` succeeds when attempted.  Each
removal site is `path.exists() && fs::remove_file(path).is_ok()`, logging on
success and silently skipping otherwise, and `clean` ends in `Ok(())` with no
fallible operation on the way.
-/

/-- One removal site of `clean`: attempt removal only when the path exists;
log (append the path) only when the removal succeeded. -/
def cleanStep (removeOk : Nat → Bool) (acc : (Nat → Bool) × List Nat)
    (p : Nat) : (Nat → Bool) × List Nat :=
  if acc.1 p && removeOk p then
    (fun q => if q = p then false else acc.1 q, acc.2 ++ [p])
  else acc

/-- The paths `clean` visits, in program order: every target's object file,
then each declared binary's path, then each declared library's dynamic and
static artifact. -/
def cleanPaths (bf : BuildFile) (objectOf staticName dynamicName : Nat → Nat) :
    List Nat :=
  bf.project.file_mod_map.map (fun tm => objectOf tm.1.source) ++
  (match bf.binaries with
   | some bins => bins.map Binary.name
   | none => []) ++
  (match bf.libraries with
   | some libs => libs.flatMap (fun l => [dynamicName l.name, staticName l.name])
   | none => [])

/-- Models `BuildFile::clean`: fold the removal step over the visited paths;
returns the final filesystem, the log of removed paths, and the (always `ok`)
result. -/
def clean (bf : BuildFile) (objectOf staticName dynamicName : Nat → Nat)
    (removeOk : Nat → Bool) (fs : Nat → Bool) :
    ((Nat → Bool) × List Nat) × Except YabsErr Unit :=
  ((cleanPaths bf objectOf staticName dynamicName).foldl (cleanStep removeOk)
    (fs, []), Except.ok ())

/-!
Build-file discovery: `find_build_file` and `check_dir`.  A directory is the
list of its path components from the root (`[]` is the root; `PathBuf::pop`
drops the last component and fails at the root).  `get_assumed_filename_for_dir`
(outside `src/`) is the oracle `assumed`; file existence in a directory is the
oracle `hasFile`; parsing (`BuildFile::from_file`) is the oracle `parse`.  The
working-directory change `env::set_current_dir` is modelled, per the spec's own
suggestion, as returning the resolved project root. -/

/-- Models `check_dir`: the recognized description filename for `dir`, when it
exists there, as the pair (directory, filename) standing for `dir.join(f)`. -/
def check_dir (assumed : List Nat → Option Nat) (hasFile : List Nat → Nat → Bool)
    (dir : List Nat) : Option (List Nat × Nat) :=
  match assumed dir with
  | some f => if hasFile dir f then some (dir, f) else none
  | none => none

/-- The loop of `find_build_file`: test the current directory, on a match
resolve there and parse, otherwise pop one component; when the pop fails (the
root is reached with no match) fail with the original starting directory.
`fuel` only makes the recursion structural; `dir.length + 1` iterations always
reach the root, so the `0` case is never hit from `find_build_file`. -/
def find_build_file_aux (assumed : List Nat → Option Nat)
    (hasFile : List Nat → Nat → Bool)
    (parse : List Nat → Nat → Except YabsErr BuildFile) (original : List Nat) :
    Nat → List Nat → Except YabsErr (List Nat × BuildFile)
  | 0, _ => Except.error (YabsErr.noAssumedToml original)
  | fuel + 1, dir =>
    match check_dir assumed hasFile dir with
    | some df => (parse df.1 df.2).map (fun bf => (df.1, bf))
    | none =>
      if dir = [] then Except.error (YabsErr.noAssumedToml original)
      else find_build_file_aux assumed hasFile parse original fuel dir.dropLast

/-- Models `find_build_file` from the starting directory `dir` (also the
`original` carried into the failure case). -/
def find_build_file (assumed : List Nat → Option Nat)
    (hasFile : List Nat → Nat → Bool)
    (parse : List Nat → Nat → Except YabsErr BuildFile) (dir : List Nat) :
    Except YabsErr (List Nat × BuildFile) :=
  find_build_file_aux assumed hasFile parse dir (dir.length + 1) dir

/-- The directories `find_build_file` visits, in order: the starting directory,
then each ancestor up to and including the root. -/
def ancestors (dir : List Nat) : List (List Nat) :=
  (List.range (dir.length + 1)).map (fun k => dir.take (dir.length - k))

/-!
Lemmas about `btreeInsert` and the staleness-queue folds.
-/

theorem mem_btreeInsert (x t : Target) (l : List Target) :
    x ∈ btreeInsert t l ↔ x = t ∨ x ∈ l := by
  induction l with
  | nil => simp [btreeInsert]
  | cons a as ih =>
    by_cases h1 : t < a
    · simp [btreeInsert, h1]
    · by_cases h2 : t = a
      · subst h2
        simp [btreeInsert, h1]
      · simp [btreeInsert, h1, h2, ih]
        tauto

theorem sorted_btreeInsert (t : Target) (l : List Target)
    (h : l.Sorted (· < ·)) : (btreeInsert t l).Sorted (· < ·) := by
  induction l with
  | nil => simp [btreeInsert]
  | cons a as ih =>
    rw [List.sorted_cons] at h
    obtain ⟨ha, has⟩ := h
    by_cases h1 : t < a
    · rw [btreeInsert, if_pos h1, List.sorted_cons]
      exact ⟨fun b hb => by
        rcases List.mem_cons.mp hb with rfl | hb
        · exact h1
        · exact h1.trans (ha b hb), List.sorted_cons.mpr ⟨ha, has⟩⟩
    · by_cases h2 : t = a
      · rw [btreeInsert, if_neg h1, if_pos h2, List.sorted_cons]
        exact ⟨ha, has⟩
      · rw [btreeInsert, if_neg h1, if_neg h2, List.sorted_cons]
        refine ⟨fun b hb => ?_, ih has⟩
        rcases (mem_btreeInsert b t as).mp hb with rfl | hb
        · exact lt_of_le_of_ne (not_lt.mp h1) (Ne.symm h2)
        · exact ha b hb

theorem mem_foldl_btreeInsert (p : Target × Nat → Bool)
    (l : List (Target × Nat)) (init : List Target) (x : Target) :
    x ∈ l.foldl (fun q tm => if p tm then btreeInsert tm.1 q else q) init ↔
      x ∈ init ∨ ∃ m, (x, m) ∈ l ∧ p (x, m) = true := by
  induction l generalizing init with
  | nil => simp
  | cons a as ih =>
    obtain ⟨a1, a2⟩ := a
    rw [List.foldl_cons, ih]
    by_cases hp : p (a1, a2)
    · simp only [hp, if_pos, mem_btreeInsert, List.mem_cons, Prod.mk.injEq]
      constructor
      · rintro (⟨rfl | hx⟩ | ⟨m, hm, hpm⟩)
        · exact Or.inr ⟨a2, Or.inl ⟨rfl, rfl⟩, hp⟩
        · exact Or.inl hx
        · exact Or.inr ⟨m, Or.inr hm, hpm⟩
      · rintro (hx | ⟨m, ⟨rfl, rfl⟩ | hm, hpm⟩)
        · exact Or.inl (Or.inr hx)
        · exact Or.inl (Or.inl rfl)
        · exact Or.inr ⟨m, hm, hpm⟩
    · simp only [hp, if_neg, List.mem_cons, Prod.mk.injEq]
      constructor
      · rintro (hx | ⟨m, hm, hpm⟩)
        · exact Or.inl hx
        · exact Or.inr ⟨m, Or.inr hm, hpm⟩
      · rintro (hx | ⟨m, ⟨rfl, rfl⟩ | hm, hpm⟩)
        · exact Or.inl hx
        · exact absurd hpm (by simpa using hp)
        · exact Or.inr ⟨m, hm, hpm⟩

theorem sorted_foldl_btreeInsert (p : Target × Nat → Bool)
    (l : List (Target × Nat)) (init : List Target)
    (h : init.Sorted (· < ·)) :
    (l.foldl (fun q tm => if p tm then btreeInsert tm.1 q else q) init).Sorted
      (· < ·) := by
  induction l generalizing init with
  | nil => exact h
  | cons a as ih =>
    rw [List.foldl_cons]
    apply ih
    by_cases hp : p a
    · rw [if_pos hp]
      exact sorted_btreeInsert a.1 init h
    · rwa [if_neg hp]

theorem foldlM_ok {α β : Type} (g : β → α → β) (l : List α) (init : β) :
    l.foldlM (m := Except YabsErr) (fun q x => Except.ok (g q x)) init =
      Except.ok (l.foldl g init) := by
  induction l generalizing init with
  | nil => rfl
  | cons a as ih =>
    rw [List.foldlM_cons]
    simpa using ih (g init a)

theorem build_object_queue_eq_of_modified (fs : FS) (objectOf : Nat → Nat)
    (fmm : List (Target × Nat)) (tp : Nat) (out : Nat)
    (hex : fs.pathExists tp = true) (hmod : fs.modified tp = some out) :
    build_object_queue fs objectOf fmm tp =
      Except.ok (fmm.foldl (fun queue tm =>
        if out < tm.2 || !(fs.pathExists (objectOf tm.1.source)) then
          btreeInsert tm.1 queue
        else queue) []) := by
  unfold build_object_queue
  rw [if_pos hex]
  simp only [hmod]
  exact foldlM_ok _ fmm []

theorem build_object_queue_eq_of_missing (fs : FS) (objectOf : Nat → Nat)
    (fmm : List (Target × Nat)) (tp : Nat) (hex : fs.pathExists tp = false) :
    build_object_queue fs objectOf fmm tp =
      Except.ok (fmm.foldl (fun queue tm =>
        if !(fs.pathExists (objectOf tm.1.source)) then btreeInsert tm.1 queue
        else queue) []) := by
  unfold build_object_queue
  rw [if_neg (by simp [hex])]

theorem map_keys_unique {l : List (Target × Nat)}
    (h : l.Pairwise (fun a b => a.1 ≠ b.1)) {t : Target} {m m' : Nat}
    (h1 : (t, m) ∈ l) (h2 : (t, m') ∈ l) : m = m' := by
  induction l with
  | nil => cases h1
  | cons a as ih =>
    rw [List.pairwise_cons] at h
    rcases List.mem_cons.mp h1 with e1 | h1' <;>
      rcases List.mem_cons.mp h2 with e2 | h2'
    · rw [← e1] at e2
      exact (Prod.mk.injEq _ _ _ _ ▸ e2).2.symm
    · exact absurd (congrArg Prod.fst e1.symm) (h.1 (t, m') h2')
    · exact absurd (congrArg Prod.fst e2.symm).symm (Ne.symm (h.1 (t, m) h1'))
    · exact ih h.2 h1' h2'

/-- Claim C2: when the output artifact path exists, `build_object_queue` queues
a target exactly when its recorded source modification time is strictly newer
than the output artifact's modified time, or the target's object file does not
exist (the object-missing case queues the target regardless of any
modification times); a target whose source mtime is not newer than the
output's mtime and whose object file exists is excluded. -/
theorem build_object_queue_output_exists_iff (fs : FS) (objectOf : Nat → Nat)
    (fmm : List (Target × Nat)) (tp : Nat) (out : Nat)
    (hex : fs.pathExists tp = true) (hmod : fs.modified tp = some out)
    (huniq : fmm.Pairwise (fun a b => a.1 ≠ b.1)) :
    ∃ q, build_object_queue fs objectOf fmm tp = Except.ok q ∧
      ∀ t m, (t, m) ∈ fmm →
        (t ∈ q ↔ out < m ∨ fs.pathExists (objectOf t.source) = false) := by
  refine ⟨_, build_object_queue_eq_of_modified fs objectOf fmm tp out hex hmod,
    ?_⟩
  intro t m hmem
  rw [mem_foldl_btreeInsert]
  simp only [List.not_mem_nil, false_or]
  constructor
  · rintro ⟨m', hm', hp⟩
    have hmm : m' = m := map_keys_unique huniq hm' hmem
    subst hmm
    simpa [Bool.or_eq_true, decide_eq_true_eq, Bool.not_eq_true'] using hp
  · intro h
    refine ⟨m, hmem, ?_⟩
    simpa [Bool.or_eq_true, decide_eq_true_eq, Bool.not_eq_true'] using h

/-- Witness for C2, with the output artifact at path 100 (mtime 5), three
sources with mtimes 7, 3, 2, and only the second source's object present. -/
theorem build_object_queue_output_exists_iff_witness :
    ∃ q,
      build_object_queue
        ⟨fun p => p = 100 || p = 12, fun p => if p = 100 then some 5 else none⟩
        (fun s => s + 10) [(⟨1⟩, 7), (⟨2⟩, 3), (⟨3⟩, 2)] 100 = Except.ok q ∧
      ∀ t m, (t, m) ∈ [((⟨1⟩ : Target), 7), (⟨2⟩, 3), (⟨3⟩, 2)] →
        (t ∈ q ↔ 5 < m ∨
          (FS.pathExists
            ⟨fun p => p = 100 || p = 12, fun p => if p = 100 then some 5 else none⟩
            (t.source + 10) = false)) :=
  build_object_queue_output_exists_iff
    ⟨fun p => p = 100 || p = 12, fun p => if p = 100 then some 5 else none⟩
    (fun s => s + 10) [(⟨1⟩, 7), (⟨2⟩, 3), (⟨3⟩, 2)] 100 5 (by rfl) (by rfl)
    (by decide)

/-- Claim C3: when the output artifact path does not exist,
`build_object_queue` returns exactly the set of targets from `file_mod_map`
whose object file does not exist; every target with an existing object file is
excluded no matter its timestamps. -/
theorem build_object_queue_output_missing_iff (fs : FS) (objectOf : Nat → Nat)
    (fmm : List (Target × Nat)) (tp : Nat) (hex : fs.pathExists tp = false) :
    ∃ q, build_object_queue fs objectOf fmm tp = Except.ok q ∧
      ∀ t, t ∈ q ↔
        (∃ m, (t, m) ∈ fmm) ∧ fs.pathExists (objectOf t.source) = false := by
  refine ⟨_, build_object_queue_eq_of_missing fs objectOf fmm tp hex, ?_⟩
  intro t
  rw [mem_foldl_btreeInsert]
  simp only [List.not_mem_nil, false_or, Bool.not_eq_true']
  constructor
  · rintro ⟨m, hm, hp⟩
    exact ⟨⟨m, hm⟩, hp⟩
  · rintro ⟨⟨m, hm⟩, hp⟩
    exact ⟨m, hm, hp⟩

/-- Witness for C3: no output artifact; of two sources only the first one's
object (path 11) exists, so exactly the second is queued. -/
theorem build_object_queue_output_missing_iff_witness :
    ∃ q,
      build_object_queue ⟨fun p => p = 11, fun _ => none⟩ (fun s => s + 10)
        [(⟨1⟩, 7), (⟨2⟩, 3)] 100 = Except.ok q ∧
      ∀ t, t ∈ q ↔
        (∃ m, (t, m) ∈ [((⟨1⟩ : Target), 7), (⟨2⟩, 3)]) ∧
          (FS.pathExists ⟨fun p => p = 11, fun _ => none⟩ (t.source + 10) =
            false) :=
  build_object_queue_output_missing_iff ⟨fun p => p = 11, fun _ => none⟩
    (fun s => s + 10) [(⟨1⟩, 7), (⟨2⟩, 3)] 100 (by rfl)

/-- Claim C7: a successfully computed staleness queue is strictly ascending in
the targets' ordering key (hence deterministic and independent of insertion
order) and contains no duplicate targets. -/
theorem build_object_queue_sorted_nodup (fs : FS) (objectOf : Nat → Nat)
    (fmm : List (Target × Nat)) (tp : Nat) (q : List Target)
    (h : build_object_queue fs objectOf fmm tp = Except.ok q) :
    q.Sorted (· < ·) ∧ q.Nodup := by
  have hsorted : q.Sorted (· < ·) := by
    cases hfs : fs.pathExists tp with
    | false =>
      rw [build_object_queue_eq_of_missing fs objectOf fmm tp hfs] at h
      injection h with hq
      subst hq
      exact sorted_foldl_btreeInsert _ fmm [] (by simp)
    | true =>
      cases hmod : fs.modified tp with
      | none =>
        cases fmm with
        | nil =>
          unfold build_object_queue at h
          rw [if_pos hfs] at h
          injection h with hq
          subst hq
          simp
        | cons a as =>
          unfold build_object_queue at h
          rw [if_pos hfs, List.foldlM_cons] at h
          simp only [hmod] at h
          simp [Bind.bind, Except.bind] at h
      | some out =>
        rw [build_object_queue_eq_of_modified fs objectOf fmm tp out hfs hmod]
          at h
        injection h with hq
        subst hq
        exact sorted_foldl_btreeInsert _ fmm [] (by simp)
  exact ⟨hsorted, hsorted.nodup⟩

/-- Witness for C7, on the same concrete input as the C2 witness. -/
theorem build_object_queue_sorted_nodup_witness :
    ([(⟨1⟩ : Target), ⟨3⟩] : List Target).Sorted (· < ·) ∧
      ([(⟨1⟩ : Target), ⟨3⟩] : List Target).Nodup :=
  build_object_queue_sorted_nodup
    ⟨fun p => p = 100 || p = 12, fun p => if p = 100 then some 5 else none⟩
    (fun s => s + 10) [(⟨1⟩, 7), (⟨2⟩, 3), (⟨3⟩, 2)] 100 [⟨1⟩, ⟨3⟩] (by rfl)

/-!
Lemmas about the drain loop.
-/

theorem drainStack_all_ok (exitOk : Target → Bool)
    (he : ∀ t, exitOk t = true) (l : List Target) :
    drainStack exitOk l = (l.map SchedEvent.wait, [], none) := by
  induction l with
  | nil => rfl
  | cons job rest ih => simp [drainStack, he job, ih]

theorem drainJobs_all_ok (exitOk : Target → Bool)
    (he : ∀ t, exitOk t = true) (procs : List Target) :
    drainJobs exitOk procs = (procs.reverse.map SchedEvent.wait, [], none) := by
  rw [drainJobs, drainStack_all_ok exitOk he]

theorem drainStack_events_waits (exitOk : Target → Bool) (l : List Target) :
    ∃ w : List Target, (drainStack exitOk l).1 = w.map SchedEvent.wait := by
  induction l with
  | nil => exact ⟨[], rfl⟩
  | cons job rest ih =>
    obtain ⟨w, hw⟩ := ih
    by_cases h : exitOk job
    · exact ⟨job :: w, by simp [drainStack, h, hw]⟩
    · exact ⟨[job], by simp [drainStack, h]⟩

theorem drainStack_count (exitOk : Target → Bool) (l : List Target)
    (t : Target) :
    (drainStack exitOk l).1.count (SchedEvent.wait t) +
        (drainStack exitOk l).2.1.count t = l.count t ∧
      (drainStack exitOk l).1.count (SchedEvent.spawn t) = 0 := by
  induction l with
  | nil => simp [drainStack]
  | cons job rest ih =>
    by_cases h : exitOk job
    · simp only [drainStack, h, if_pos]
      rw [List.count_cons, List.count_cons, List.count_cons]
      constructor
      · have := ih.1
        simp only [SchedEvent.wait.injEq, beq_iff_eq]
        omega
      · have := ih.2
        simp only [this]
        simp
    · simp only [drainStack, h, Bool.false_eq_true, if_neg, not_false_iff]
      constructor
      · rw [List.count_cons, List.count_cons]
        simp [List.count_reverse, List.count_nil]
        omega
      · simp

theorem drainStack_none (exitOk : Target → Bool) (l : List Target)
    (h : (drainStack exitOk l).2.2 = none) :
    drainStack exitOk l = (l.map SchedEvent.wait, [], none) := by
  induction l with
  | nil => rfl
  | cons job rest ih =>
    by_cases hj : exitOk job
    · simp only [drainStack, hj, if_pos] at h ⊢
      rw [ih h]
      simp
    · simp [drainStack, hj] at h

theorem drainStack_waitfail_last (exitOk : Target → Bool) (l : List Target)
    (t : Target)
    (h : (drainStack exitOk l).2.2 = some (SchedError.waitFail t)) :
    (drainStack exitOk l).1.getLast? = some (SchedEvent.wait t) := by
  induction l with
  | nil => simp [drainStack] at h
  | cons job rest ih =>
    by_cases hj : exitOk job
    · simp only [drainStack, hj, if_pos] at h ⊢
      have hlast := ih h
      have hne : (drainStack exitOk rest).1 ≠ [] := by
        intro hnil
        rw [hnil] at hlast
        simp at hlast
      obtain ⟨b, l', hb⟩ := List.exists_cons_of_ne_nil hne
      rw [hb] at hlast ⊢
      rw [List.getLast?_cons_cons]
      exact hlast
    · simp only [drainStack] at h ⊢
      rw [if_neg hj] at h ⊢
      simp only [Option.some.injEq, SchedError.waitFail.injEq] at h
      simp [h]


theorem inFlightLe_wait_append (W : Nat) (w : List Target) :
    ∀ cur rest, inFlightLe W cur (w.map SchedEvent.wait ++ rest) =
      inFlightLe W (cur - w.length) rest := by
  induction w with
  | nil => intro cur rest; simp
  | cons a as ih =>
    intro cur rest
    simp only [List.map_cons, List.cons_append, inFlightLe, List.append_eq]
    rw [ih]
    congr 1
    simp only [List.length_cons]
    omega

theorem inFlightLe_waits (W c : Nat) (w : List Target) :
    inFlightLe W c (w.map SchedEvent.wait) = true := by
  have h := inFlightLe_wait_append W w c []
  simp only [List.append_nil] at h
  rw [h]
  rfl

theorem runJobQueueAux_inFlightLe (spawnOk exitOk : Target → Bool)
    (jobs : Nat) :
    ∀ fuel queue procs evs rem err,
      runJobQueueAux spawnOk exitOk jobs fuel queue procs =
        some (evs, rem, err) →
      procs.length ≤ jobs → inFlightLe jobs procs.length evs = true := by
  intro fuel
  induction fuel with
  | zero =>
    intro queue procs evs rem err h _
    exact absurd h (by simp [runJobQueueAux])
  | succ fuel ih =>
    intro queue procs evs rem err h hle
    rw [runJobQueueAux] at h
    split at h
    · -- queue empty: the final drain produces only wait events
      injection h with h2
      obtain ⟨w, hw⟩ := drainStack_events_waits exitOk procs.reverse
      have hevs : evs = w.map SchedEvent.wait := by
        rw [← hw]
        show evs = (drainJobs exitOk procs).1
        rw [h2]
      rw [hevs]
      exact inFlightLe_waits jobs procs.length w
    · split at h
      · -- spawning branch
        rename_i hne hlt
        split at h
        · -- dead branch: pop returned None, loop state unchanged
          exact ih queue procs evs rem err h hle
        · rename_i target hg
          split at h
          · -- spawn succeeded
            rename_i hspawn
            split at h
            · exact absurd h (by simp)
            · rename_i evs1 rem1 err1 haux
              injection h with h2
              simp only [Prod.mk.injEq] at h2
              obtain ⟨rfl, rfl, rfl⟩ := h2
              simp only [inFlightLe, Bool.and_eq_true, decide_eq_true_eq]
              refine ⟨Nat.succ_le_of_lt hlt, ?_⟩
              have hres := ih queue.dropLast (procs ++ [target]) evs1 rem1 err1
                haux (by simpa using Nat.succ_le_of_lt hlt)
              simpa using hres
          · -- spawn failed: empty trace
            injection h with h2
            simp only [Prod.mk.injEq] at h2
            obtain ⟨rfl, rfl, rfl⟩ := h2
            rfl
      · -- batch-drain branch
        rename_i hne hge
        split at h
        · -- drain ended in an error
          rename_i evs1 rem1 e hd
          injection h with h2
          simp only [Prod.mk.injEq] at h2
          obtain ⟨rfl, rfl, rfl⟩ := h2
          obtain ⟨w, hw⟩ := drainStack_events_waits exitOk procs.reverse
          have hevs : evs1 = w.map SchedEvent.wait := by
            rw [← hw]
            show evs1 = (drainJobs exitOk procs).1
            rw [hd]
          rw [hevs]
          exact inFlightLe_waits jobs procs.length w
        · -- drain succeeded; the loop continues with an empty in-flight vector
          rename_i evs1 rem1 hd
          split at h
          · exact absurd h (by simp)
          · rename_i evs2 rem2 err2 haux
            injection h with h2
            simp only [Prod.mk.injEq] at h2
            obtain ⟨rfl, rfl, rfl⟩ := h2
            rw [drainJobs] at hd
            have hnone : (drainStack exitOk procs.reverse).2.2 = none := by
              rw [hd]
            have hchar := drainStack_none exitOk procs.reverse hnone
            rw [hchar] at hd
            simp only [Prod.mk.injEq] at hd
            obtain ⟨hevs1, hrem1, -⟩ := hd
            rw [← hevs1, inFlightLe_wait_append]
            simp only [List.length_reverse, Nat.sub_self]
            have hres := ih queue [] evs2 rem2 err2 haux (Nat.zero_le jobs)
            simpa using hres

theorem runJobQueueAux_seq (spawnOk exitOk : Target → Bool)
    (hs : ∀ t, spawnOk t = true) (he : ∀ t, exitOk t = true)
    (queue : List Target) :
    ∀ fuel, 2 * queue.length + 1 ≤ fuel →
      runJobQueueAux spawnOk exitOk 1 fuel queue [] =
        some (queue.reverse.flatMap
          (fun t => [SchedEvent.spawn t, SchedEvent.wait t]), [], none) := by
  induction queue using List.reverseRecOn with
  | nil =>
    intro fuel hf
    obtain ⟨f, rfl⟩ : ∃ f, fuel = f + 1 := ⟨fuel - 1, by omega⟩
    rw [runJobQueueAux]
    simp [drainJobs, drainStack]
  | append_singleton q t ihq =>
    intro fuel hf
    simp only [List.length_append, List.length_cons, List.length_nil] at hf
    obtain ⟨f, rfl⟩ : ∃ f, fuel = f + 1 := ⟨fuel - 1, by omega⟩
    rw [runJobQueueAux]
    rw [if_neg (by simp)]
    rw [if_pos (by simp)]
    simp only [List.getLast?_concat, hs t, if_true, List.dropLast_concat,
      List.nil_append]
    have hd : drainJobs exitOk [t] = ([SchedEvent.wait t], [], none) := by
      simp [drainJobs, drainStack, he t]
    rcases eq_or_ne q [] with rfl | hq
    · obtain ⟨f1, rfl⟩ : ∃ f1, f = f1 + 1 := ⟨f - 1, by omega⟩
      rw [runJobQueueAux]
      simp [hd]
    · obtain ⟨f1, rfl⟩ : ∃ f1, f = f1 + 1 := ⟨f - 1, by omega⟩
      rw [runJobQueueAux]
      rw [if_neg (by simp [hq])]
      rw [if_neg (by simp)]
      rw [hd]
      rw [ihq f1 (by omega)]
      simp

theorem runJobQueueAux_wide (spawnOk exitOk : Target → Bool) (jobs : Nat)
    (hs : ∀ t, spawnOk t = true) (he : ∀ t, exitOk t = true)
    (queue : List Target) :
    ∀ procs fuel, procs.length + queue.length ≤ jobs →
      queue.length + 1 ≤ fuel →
      runJobQueueAux spawnOk exitOk jobs fuel queue procs =
        some (queue.reverse.map SchedEvent.spawn ++
          (queue ++ procs.reverse).map SchedEvent.wait, [], none) := by
  induction queue using List.reverseRecOn with
  | nil =>
    intro procs fuel hlen hf
    obtain ⟨f, rfl⟩ : ∃ f, fuel = f + 1 := ⟨fuel - 1, by omega⟩
    rw [runJobQueueAux]
    simp [drainJobs_all_ok exitOk he]
  | append_singleton q t ihq =>
    intro procs fuel hlen hf
    simp only [List.length_append, List.length_cons, List.length_nil] at hlen hf
    obtain ⟨f, rfl⟩ : ∃ f, fuel = f + 1 := ⟨fuel - 1, by omega⟩
    rw [runJobQueueAux]
    rw [if_neg (by simp)]
    rw [if_pos (by omega)]
    simp only [List.getLast?_concat, hs t, if_true, List.dropLast_concat]
    rw [ihq (procs ++ [t]) f (by simp; omega) (by omega)]
    simp [List.reverse_append]

theorem count_spawn_cons_spawn (a t : Target) (l : List SchedEvent) :
    (SchedEvent.spawn a :: l).count (SchedEvent.spawn t) =
      l.count (SchedEvent.spawn t) + if a = t then 1 else 0 := by
  rw [List.count_cons]
  by_cases h : a = t <;> simp [h]

theorem count_wait_cons_spawn (a t : Target) (l : List SchedEvent) :
    (SchedEvent.spawn a :: l).count (SchedEvent.wait t) =
      l.count (SchedEvent.wait t) := by
  rw [List.count_cons]
  simp

theorem count_concat_target (procs : List Target) (a t : Target) :
    (procs ++ [a]).count t = procs.count t + if a = t then 1 else 0 := by
  rw [List.count_append]
  by_cases h : a = t <;> simp [List.count_cons, h]

theorem count_wait_map (w : List Target) (t : Target) :
    (w.map SchedEvent.wait).count (SchedEvent.wait t) = w.count t ∧
      (w.map SchedEvent.wait).count (SchedEvent.spawn t) = 0 := by
  induction w with
  | nil => simp
  | cons a as ih =>
    simp only [List.map_cons, List.count_cons]
    constructor
    · rw [ih.1]
      by_cases h : a = t <;> simp [h]
    · rw [ih.2]
      simp

/-- Conservation over the scheduler: every spawned job is, by the time the
function returns, either waited on or still sitting in the returned in-flight
vector, and nothing is waited on or left over that was not spawned (counting
the jobs already in flight on entry). -/
theorem runJobQueueAux_conservation (spawnOk exitOk : Target → Bool)
    (jobs : Nat) :
    ∀ fuel queue procs evs rem err,
      runJobQueueAux spawnOk exitOk jobs fuel queue procs =
        some (evs, rem, err) →
      ∀ t, procs.count t + evs.count (SchedEvent.spawn t) =
        evs.count (SchedEvent.wait t) + rem.count t := by
  intro fuel
  induction fuel with
  | zero =>
    intro queue procs evs rem err h t
    exact absurd h (by simp [runJobQueueAux])
  | succ fuel ih =>
    intro queue procs evs rem err h t
    rw [runJobQueueAux] at h
    split at h
    · injection h with h2
      rw [drainJobs] at h2
      have hc := drainStack_count exitOk procs.reverse t
      rw [h2] at hc
      simp only [List.count_reverse] at hc
      omega
    · split at h
      · rename_i hne hlt
        split at h
        · exact ih queue procs evs rem err h t
        · rename_i target hg
          split at h
          · rename_i hspawn
            split at h
            · exact absurd h (by simp)
            · rename_i evs1 rem1 err1 haux
              injection h with h2
              simp only [Prod.mk.injEq] at h2
              obtain ⟨rfl, rfl, rfl⟩ := h2
              have hres := ih queue.dropLast (procs ++ [target]) evs1 rem1 err1
                haux t
              rw [count_concat_target] at hres
              rw [count_spawn_cons_spawn, count_wait_cons_spawn]
              by_cases hts : target = t <;> simp [hts] at hres ⊢ <;> omega
          · injection h with h2
            simp only [Prod.mk.injEq] at h2
            obtain ⟨rfl, rfl, rfl⟩ := h2
            simp
      · rename_i hne hge
        split at h
        · rename_i evs1 rem1 e hd
          injection h with h2
          simp only [Prod.mk.injEq] at h2
          obtain ⟨rfl, rfl, rfl⟩ := h2
          rw [drainJobs] at hd
          have hc := drainStack_count exitOk procs.reverse t
          rw [hd] at hc
          simp only [List.count_reverse] at hc
          omega
        · rename_i evs1 rem1 hd
          split at h
          · exact absurd h (by simp)
          · rename_i evs2 rem2 err2 haux
            injection h with h2
            simp only [Prod.mk.injEq] at h2
            obtain ⟨rfl, rfl, rfl⟩ := h2
            rw [drainJobs] at hd
            have hnone : (drainStack exitOk procs.reverse).2.2 = none := by
              rw [hd]
            have hchar := drainStack_none exitOk procs.reverse hnone
            rw [hchar] at hd
            simp only [Prod.mk.injEq] at hd
            obtain ⟨hevs1, hrem1, -⟩ := hd
            have hres := ih queue [] evs2 rem2 err2 haux t
            rw [List.count_append, List.count_append, ← hevs1]
            have hcw := count_wait_map procs.reverse t
            simp only [List.count_reverse] at hcw
            rw [hcw.1, hcw.2]
            simp only [List.count_nil] at hres
            omega

/-- When the scheduler propagates a `yield_self` failure, the failing wait is
the very last observable action: nothing is spawned or waited afterwards. -/
theorem runJobQueueAux_waitfail_last (spawnOk exitOk : Target → Bool)
    (jobs : Nat) :
    ∀ fuel queue procs evs rem t,
      runJobQueueAux spawnOk exitOk jobs fuel queue procs =
        some (evs, rem, some (SchedError.waitFail t)) →
      evs.getLast? = some (SchedEvent.wait t) := by
  intro fuel
  induction fuel with
  | zero =>
    intro queue procs evs rem t h
    exact absurd h (by simp [runJobQueueAux])
  | succ fuel ih =>
    intro queue procs evs rem t h
    rw [runJobQueueAux] at h
    split at h
    · injection h with h2
      rw [drainJobs] at h2
      have herr : (drainStack exitOk procs.reverse).2.2 =
          some (SchedError.waitFail t) := by
        rw [h2]
      have hlast := drainStack_waitfail_last exitOk procs.reverse t herr
      rw [h2] at hlast
      exact hlast
    · split at h
      · rename_i hne hlt
        split at h
        · exact ih queue procs evs rem t h
        · rename_i target hg
          split at h
          · rename_i hspawn
            split at h
            · exact absurd h (by simp)
            · rename_i evs1 rem1 err1 haux
              injection h with h2
              simp only [Prod.mk.injEq] at h2
              obtain ⟨rfl, rfl, rfl⟩ := h2
              have hlast := ih queue.dropLast (procs ++ [target]) evs1 rem1 t
                haux
              have hne1 : evs1 ≠ [] := by
                intro hnil
                rw [hnil] at hlast
                simp at hlast
              obtain ⟨b, l2, rfl⟩ := List.exists_cons_of_ne_nil hne1
              rw [List.getLast?_cons_cons]
              exact hlast
          · injection h with h2
            simp only [Prod.mk.injEq, Option.some.injEq] at h2
            exact absurd h2.2.2 (by simp)
      · rename_i hne hge
        split at h
        · rename_i evs1 rem1 e hd
          injection h with h2
          simp only [Prod.mk.injEq, Option.some.injEq] at h2
          obtain ⟨rfl, rfl, rfl⟩ := h2
          rw [drainJobs] at hd
          have herr : (drainStack exitOk procs.reverse).2.2 =
              some (SchedError.waitFail t) := by
            rw [hd]
          have hlast := drainStack_waitfail_last exitOk procs.reverse t herr
          rw [hd] at hlast
          exact hlast
        · rename_i evs1 rem1 hd
          split at h
          · exact absurd h (by simp)
          · rename_i evs2 rem2 err2 haux
            injection h with h2
            simp only [Prod.mk.injEq] at h2
            obtain ⟨rfl, rfl, rfl⟩ := h2
            have hlast := ih queue [] evs2 rem2 t haux
            have hne2 : evs2 ≠ [] := by
              intro hnil
              rw [hnil] at hlast
              simp at hlast
            rw [List.getLast?_append_of_ne_nil evs1 hne2]
            exact hlast

/-- When the scheduler returns without an error, no job is left in flight. -/
theorem runJobQueueAux_ok_rem_nil (spawnOk exitOk : Target → Bool)
    (jobs : Nat) :
    ∀ fuel queue procs evs rem,
      runJobQueueAux spawnOk exitOk jobs fuel queue procs =
        some (evs, rem, none) →
      rem = [] := by
  intro fuel
  induction fuel with
  | zero =>
    intro queue procs evs rem h
    exact absurd h (by simp [runJobQueueAux])
  | succ fuel ih =>
    intro queue procs evs rem h
    rw [runJobQueueAux] at h
    split at h
    · injection h with h2
      rw [drainJobs] at h2
      have hnone : (drainStack exitOk procs.reverse).2.2 = none := by
        rw [h2]
      have hchar := drainStack_none exitOk procs.reverse hnone
      rw [hchar] at h2
      simp only [Prod.mk.injEq] at h2
      exact h2.2.1.symm
    · split at h
      · rename_i hne hlt
        split at h
        · exact ih queue procs evs rem h
        · rename_i target hg
          split at h
          · rename_i hspawn
            split at h
            · exact absurd h (by simp)
            · rename_i evs1 rem1 err1 haux
              injection h with h2
              simp only [Prod.mk.injEq] at h2
              obtain ⟨rfl, rfl, rfl⟩ := h2
              exact ih queue.dropLast (procs ++ [target]) evs1 rem1 haux
          · injection h with h2
            simp only [Prod.mk.injEq] at h2
            exact absurd h2.2.2 (by simp)
      · rename_i hne hge
        split at h
        · rename_i evs1 rem1 e hd
          injection h with h2
          simp only [Prod.mk.injEq] at h2
          exact absurd h2.2.2 (by simp)
        · rename_i evs1 rem1 hd
          split at h
          · exact absurd h (by simp)
          · rename_i evs2 rem2 err2 haux
            injection h with h2
            simp only [Prod.mk.injEq] at h2
            obtain ⟨rfl, rfl, rfl⟩ := h2
            exact ih queue [] evs2 rem2 haux

/-- With at least one worker, `2 * |queue| + 2` outer iterations always
complete the loop, whatever the spawn and exit outcomes. -/
theorem runJobQueueAux_total (spawnOk exitOk : Target → Bool) (jobs : Nat)
    (hjobs : 1 ≤ jobs) :
    ∀ n queue procs fuel, queue.length = n → 2 * n + 2 ≤ fuel →
      runJobQueueAux spawnOk exitOk jobs fuel queue procs ≠ none := by
  intro n
  induction n using Nat.strong_induction_on with
  | _ n ihn =>
    intro queue procs fuel hlen hf
    obtain ⟨f, rfl⟩ : ∃ f, fuel = f + 1 := ⟨fuel - 1, by omega⟩
    rw [runJobQueueAux]
    by_cases hq : queue.isEmpty
    · rw [if_pos hq]
      simp
    · rw [if_neg hq]
      have hqe : queue ≠ [] := by simpa [List.isEmpty_iff] using hq
      have hn : 1 ≤ n := by
        rw [← hlen]
        exact List.length_pos.mpr hqe
      obtain ⟨target, hg⟩ : ∃ target, queue.getLast? = some target := by
        cases hgl : queue.getLast? with
        | none => exact absurd (List.getLast?_eq_none_iff.mp hgl) hqe
        | some a => exact ⟨a, rfl⟩
      by_cases hlt : procs.length < jobs
      · rw [if_pos hlt]
        by_cases hsp : spawnOk target = true
        · simp only [hg, hsp, if_true]
          have hrec := ihn (n - 1) (by omega) queue.dropLast
            (procs ++ [target]) f (by rw [List.length_dropLast]; omega)
            (by omega)
          cases haux : runJobQueueAux spawnOk exitOk jobs f queue.dropLast
              (procs ++ [target]) with
          | none => exact absurd haux hrec
          | some r =>
            obtain ⟨evs1, rem1, err1⟩ := r
            simp
        · simp only [hg]
          rw [if_neg hsp]
          simp
      · rw [if_neg hlt]
        cases hd : drainJobs exitOk procs with
        | mk evs1 r2 =>
          obtain ⟨rem1, err1⟩ := r2
          cases err1 with
          | some e => simp
          | none =>
            obtain ⟨f1, rfl⟩ : ∃ f1, f = f1 + 1 := ⟨f - 1, by omega⟩
            rw [runJobQueueAux]
            rw [if_neg hq]
            rw [if_pos (by simpa using hjobs)]
            by_cases hsp : spawnOk target = true
            · simp only [hg, hsp, if_true]
              have hrec := ihn (n - 1) (by omega) queue.dropLast [target] f1
                (by rw [List.length_dropLast]; omega) (by omega)
              cases haux : runJobQueueAux spawnOk exitOk jobs f1 queue.dropLast
                  ([] ++ [target]) with
              | none =>
                rw [List.nil_append] at haux
                exact absurd haux hrec
              | some r =>
                obtain ⟨evs2, rem2, err2⟩ := r
                simp
            · simp only [hg]
              rw [if_neg hsp]
              simp

/-- With a worker budget of zero and a non-empty queue, the loop makes no
progress: no amount of fuel completes it. -/
theorem runJobQueueAux_zero_jobs (spawnOk exitOk : Target → Bool) :
    ∀ fuel queue, queue ≠ [] →
      runJobQueueAux spawnOk exitOk 0 fuel queue [] = none := by
  intro fuel
  induction fuel with
  | zero =>
    intro queue hqe
    rfl
  | succ fuel ih =>
    intro queue hqe
    rw [runJobQueueAux]
    rw [if_neg (by simpa [List.isEmpty_iff] using hqe)]
    rw [if_neg (by simp)]
    rw [ih queue hqe]
    rfl

/-- Counterexample to claim C1 as stated: queue `[1, 2]`, worker budget 2, all
spawns succeed, target 1 exits nonzero.  Both targets are spawned, the final
drain pops target 1 first and its failing wait is propagated at once — and
target 2, still in flight, is returned in the leftover vector without ever
being waited on, contradicting "every job already in-flight in the current
batch is still waited on before the error is returned". -/
theorem run_job_queue_abandons_inflight_sibling :
    run_job_queue (fun _ => true) (fun t => decide (t.source ≠ 1)) [⟨1⟩, ⟨2⟩]
        2 =
      some ([SchedEvent.spawn ⟨2⟩, SchedEvent.spawn ⟨1⟩, SchedEvent.wait ⟨1⟩],
        [⟨2⟩], some (SchedError.waitFail ⟨1⟩)) ∧
    ([SchedEvent.spawn ⟨2⟩, SchedEvent.spawn ⟨1⟩,
        SchedEvent.wait ⟨1⟩].count (SchedEvent.wait ⟨2⟩) = 0) := by
  constructor <;> rfl

/-- Claim C1 (amended): a spawn failure or nonzero exit of a compile job is a
fatal error that is propagated immediately and prevents any new batch from
being spawned — after a failed wait the failing wait is the last event of the
run — and no in-flight job is killed; however, the jobs still in flight when
the failure is observed are returned un-awaited in the leftover vector rather
than being waited on: every spawned job is either waited on or left in the
leftover vector (never both), and the leftover vector is empty whenever the
run ends without an error. -/
theorem run_job_queue_failure_behaviour (spawnOk exitOk : Target → Bool)
    (queue : List Target) (jobs : Nat) (evs : List SchedEvent)
    (rem : List Target) (err : Option SchedError)
    (h : run_job_queue spawnOk exitOk queue jobs = some (evs, rem, err)) :
    (∀ t, evs.count (SchedEvent.spawn t) =
      evs.count (SchedEvent.wait t) + rem.count t) ∧
    (∀ t, err = some (SchedError.waitFail t) →
      evs.getLast? = some (SchedEvent.wait t)) ∧
    (err = none → rem = []) := by
  rw [run_job_queue] at h
  refine ⟨?_, ?_, ?_⟩
  · intro t
    have hc := runJobQueueAux_conservation spawnOk exitOk jobs
      (2 * queue.length + 2) queue [] evs rem err h t
    simpa using hc
  · intro t ht
    subst ht
    exact runJobQueueAux_waitfail_last spawnOk exitOk jobs
      (2 * queue.length + 2) queue [] evs rem t h
  · intro ht
    subst ht
    exact runJobQueueAux_ok_rem_nil spawnOk exitOk jobs
      (2 * queue.length + 2) queue [] evs rem h

/-- Witness for the amended C1, at the counterexample's input. -/
theorem run_job_queue_failure_behaviour_witness :
    (∀ t, [SchedEvent.spawn ⟨2⟩, SchedEvent.spawn ⟨1⟩,
        SchedEvent.wait ⟨1⟩].count (SchedEvent.spawn t) =
      [SchedEvent.spawn ⟨2⟩, SchedEvent.spawn ⟨1⟩,
        SchedEvent.wait ⟨1⟩].count (SchedEvent.wait t) +
        [(⟨2⟩ : Target)].count t) ∧
    (∀ t, (some (SchedError.waitFail ⟨1⟩) = some (SchedError.waitFail t)) →
      [SchedEvent.spawn ⟨2⟩, SchedEvent.spawn ⟨1⟩,
        SchedEvent.wait ⟨1⟩].getLast? = some (SchedEvent.wait t)) ∧
    ((some (SchedError.waitFail ⟨1⟩) = none) → [(⟨2⟩ : Target)] = []) :=
  run_job_queue_failure_behaviour (fun _ => true)
    (fun t => decide (t.source ≠ 1)) [⟨1⟩, ⟨2⟩] 2
    [SchedEvent.spawn ⟨2⟩, SchedEvent.spawn ⟨1⟩, SchedEvent.wait ⟨1⟩]
    [⟨2⟩] (some (SchedError.waitFail ⟨1⟩)) (by rfl)

/-- Claim C4: for every job queue and worker budget `W ≥ 1`, the number of
in-flight jobs never exceeds `W` at any step of the run; `W = 1` forces
strictly sequential execution (each job is spawned and then waited before the
next spawn), and when `W` is at least the queue length every job is spawned
before any job is waited on. -/
theorem run_job_queue_bounded (spawnOk exitOk : Target → Bool)
    (queue : List Target) (W : Nat) (hW : 1 ≤ W) :
    (∀ evs rem err,
      run_job_queue spawnOk exitOk queue W = some (evs, rem, err) →
      inFlightLe W 0 evs = true) ∧
    ((∀ t, spawnOk t = true) → (∀ t, exitOk t = true) → W = 1 →
      run_job_queue spawnOk exitOk queue W =
        some (queue.reverse.flatMap
          (fun t => [SchedEvent.spawn t, SchedEvent.wait t]), [], none)) ∧
    ((∀ t, spawnOk t = true) → (∀ t, exitOk t = true) → queue.length ≤ W →
      run_job_queue spawnOk exitOk queue W =
        some (queue.reverse.map SchedEvent.spawn ++ queue.map SchedEvent.wait,
          [], none)) := by
  refine ⟨?_, ?_, ?_⟩
  · intro evs rem err h
    rw [run_job_queue] at h
    have hb := runJobQueueAux_inFlightLe spawnOk exitOk W
      (2 * queue.length + 2) queue [] evs rem err h (by simp)
    simpa using hb
  · intro hs he hW1
    subst hW1
    rw [run_job_queue]
    exact runJobQueueAux_seq spawnOk exitOk hs he queue _ (by omega)
  · intro hs he hlen
    rw [run_job_queue]
    have hw := runJobQueueAux_wide spawnOk exitOk W hs he queue []
      (2 * queue.length + 2) (by simpa using hlen) (by omega)
    simpa using hw

/-- Witness for C4, exercising the `W = 1` strictly sequential case. -/
theorem run_job_queue_bounded_witness :
    run_job_queue (fun _ => true) (fun _ => true) [⟨1⟩, ⟨2⟩] 1 =
      some (([(⟨1⟩ : Target), ⟨2⟩]).reverse.flatMap
        (fun t => [SchedEvent.spawn t, SchedEvent.wait t]), [], none) :=
  (run_job_queue_bounded (fun _ => true) (fun _ => true) [⟨1⟩, ⟨2⟩] 1
    (by decide)).2.1 (fun _ => rfl) (fun _ => rfl) rfl

/-- Claim C10: `run_job_queue` terminates for every finite job queue when the
worker budget is at least 1 (a fixed fuel of `2·|queue| + 2` outer iterations
always completes the loop), and the precondition is essential: with a budget
of 0 and a non-empty queue the loop can neither spawn nor shrink the queue,
so no amount of fuel completes it. -/
theorem run_job_queue_termination (spawnOk exitOk : Target → Bool)
    (queue : List Target) (jobs : Nat) :
    (1 ≤ jobs → ∃ r, run_job_queue spawnOk exitOk queue jobs = some r) ∧
    (jobs = 0 → queue ≠ [] →
      ∀ fuel, runJobQueueAux spawnOk exitOk jobs fuel queue [] = none) := by
  constructor
  · intro hjobs
    have h := runJobQueueAux_total spawnOk exitOk jobs hjobs queue.length
      queue [] (2 * queue.length + 2) rfl (by omega)
    rw [run_job_queue]
    cases hr : runJobQueueAux spawnOk exitOk jobs (2 * queue.length + 2)
        queue [] with
    | none => exact absurd hr h
    | some r => exact ⟨r, rfl⟩
  · intro hj hqe fuel
    subst hj
    exact runJobQueueAux_zero_jobs spawnOk exitOk fuel queue hqe

/-- Witness for C10: a one-element queue terminates with one worker, and with
zero workers the same queue never terminates. -/
theorem run_job_queue_termination_witness :
    (∃ r, run_job_queue (fun _ => true) (fun _ => true) [⟨1⟩] 1 = some r) ∧
    (∀ fuel,
      runJobQueueAux (fun _ => true) (fun _ => true) 0 fuel [⟨1⟩] [] =
        none) :=
  ⟨(run_job_queue_termination (fun _ => true) (fun _ => true) [⟨1⟩] 1).1
      (by decide),
    (run_job_queue_termination (fun _ => true) (fun _ => true) [⟨1⟩] 0).2 rfl
      (by decide)⟩

/-- Claim C6 (code bug): when a `[bin]`/`[lib]` section is declared but does
not contain the requested name, `build_binary_with_name` and
`build_library_with_name` fall through the inner `if let` and return `Ok(())`
without building anything, instead of the target-not-found error; that error
(carrying kind and name) is produced only when the whole section is absent. -/
theorem build_with_name_silent_on_absent_target :
    build_binary_with_name ⟨⟨[]⟩, some [⟨5⟩], none⟩ (fun _ => Except.ok ()) 7 =
      Except.ok none ∧
    build_library_with_name ⟨⟨[]⟩, none, some [⟨5, true, false⟩]⟩
      (fun _ => Except.ok ()) 7 = Except.ok none ∧
    build_binary_with_name ⟨⟨[]⟩, none, none⟩ (fun _ => Except.ok ()) 7 =
      Except.error (YabsErr.targetNotFound "binary" 7) ∧
    build_library_with_name ⟨⟨[]⟩, none, none⟩ (fun _ => Except.ok ()) 7 =
      Except.error (YabsErr.targetNotFound "library" 7) :=
  ⟨rfl, rfl, rfl, rfl⟩

/-!
Lemmas about `clean`.
-/

theorem cleanStep_mono (removeOk : Nat → Bool)
    (acc : (Nat → Bool) × List Nat) (p q : Nat)
    (h : (cleanStep removeOk acc p).1 q = true) : acc.1 q = true := by
  unfold cleanStep at h
  split at h
  · simp only at h
    split at h
    · exact absurd h (by simp)
    · exact h
  · exact h

theorem foldl_cleanStep_mono (removeOk : Nat → Bool) (L : List Nat) :
    ∀ acc q, ((L.foldl (cleanStep removeOk) acc).1 q = true) →
      acc.1 q = true := by
  induction L with
  | nil => intro acc q h; exact h
  | cons a as ih =>
    intro acc q h
    rw [List.foldl_cons] at h
    exact cleanStep_mono removeOk acc a q (ih (cleanStep removeOk acc a) q h)

theorem foldl_cleanStep_dead (removeOk : Nat → Bool) (L : List Nat) :
    ∀ acc p, p ∈ L →
      ((L.foldl (cleanStep removeOk) acc).1 p && removeOk p) = false := by
  induction L with
  | nil =>
    intro acc p hp
    cases hp
  | cons a as ih =>
    intro acc p hp
    rw [List.foldl_cons]
    rcases List.mem_cons.mp hp with rfl | hp
    · -- after the step on `p`, either it was removed or its removal fails
      by_cases hr : removeOk p = true
      · have hstep : (cleanStep removeOk acc p).1 p = false ∨
            (cleanStep removeOk acc p).1 p = acc.1 p ∧ acc.1 p = false := by
          unfold cleanStep
          split
          · simp
          · rename_i hcond
            simp only [Bool.and_eq_true] at hcond
            right
            refine ⟨rfl, ?_⟩
            by_cases hfs : acc.1 p = true
            · exact absurd ⟨hfs, hr⟩ hcond
            · simpa using hfs
        have hfalse : (cleanStep removeOk acc p).1 p = false := by
          rcases hstep with h1 | ⟨h1, h2⟩
          · exact h1
          · rw [h1, h2]
        by_cases hnow : (as.foldl (cleanStep removeOk)
            (cleanStep removeOk acc p)).1 p = true
        · have := foldl_cleanStep_mono removeOk as
            (cleanStep removeOk acc p) p hnow
          rw [hfalse] at this
          cases this
        · simp only [Bool.not_eq_true] at hnow
          rw [hnow]
          rfl
      · simp only [Bool.not_eq_true] at hr
        rw [hr]
        simp
    · exact ih (cleanStep removeOk acc a) p hp

theorem foldl_cleanStep_noop (removeOk : Nat → Bool) (L : List Nat) :
    ∀ acc, (∀ p ∈ L, (acc.1 p && removeOk p) = false) →
      L.foldl (cleanStep removeOk) acc = acc := by
  induction L with
  | nil => intro acc _; rfl
  | cons a as ih =>
    intro acc hdead
    rw [List.foldl_cons]
    have hstep : cleanStep removeOk acc a = acc := by
      unfold cleanStep
      rw [if_neg]
      rw [hdead a (List.mem_cons_self a as)]
      simp
    rw [hstep]
    exact ih acc (fun p hp => hdead p (List.mem_cons_of_mem a hp))

/-- Claim C8: `clean` returns `Ok` for every filesystem state, and it is
idempotent and best-effort: a file that is missing, or whose removal fails,
is silently skipped rather than treated as an error, so a second invocation
finds nothing left to remove — it leaves the filesystem unchanged, logs no
removal, and again returns success. -/
theorem clean_ok_and_idempotent (bf : BuildFile)
    (objectOf staticName dynamicName : Nat → Nat) (removeOk : Nat → Bool)
    (fs : Nat → Bool) :
    (clean bf objectOf staticName dynamicName removeOk fs).2 = Except.ok () ∧
    (clean bf objectOf staticName dynamicName removeOk
        (clean bf objectOf staticName dynamicName removeOk fs).1.1).1.1 =
      (clean bf objectOf staticName dynamicName removeOk fs).1.1 ∧
    (clean bf objectOf staticName dynamicName removeOk
        (clean bf objectOf staticName dynamicName removeOk fs).1.1).1.2 =
      [] := by
  have hdead : ∀ p ∈ cleanPaths bf objectOf staticName dynamicName,
      ((((cleanPaths bf objectOf staticName dynamicName).foldl
        (cleanStep removeOk) (fs, [])).1 p) && removeOk p) = false :=
    fun p hp => foldl_cleanStep_dead removeOk _ (fs, []) p hp
  have hnoop := foldl_cleanStep_noop removeOk
    (cleanPaths bf objectOf staticName dynamicName)
    ((((cleanPaths bf objectOf staticName dynamicName).foldl
      (cleanStep removeOk) (fs, [])).1), []) hdead
  refine ⟨rfl, ?_, ?_⟩
  · show ((cleanPaths bf objectOf staticName dynamicName).foldl
        (cleanStep removeOk)
        ((((cleanPaths bf objectOf staticName dynamicName).foldl
          (cleanStep removeOk) (fs, [])).1), [])).1 =
      ((cleanPaths bf objectOf staticName dynamicName).foldl
        (cleanStep removeOk) (fs, [])).1
    rw [hnoop]
  · show ((cleanPaths bf objectOf staticName dynamicName).foldl
        (cleanStep removeOk)
        ((((cleanPaths bf objectOf staticName dynamicName).foldl
          (cleanStep removeOk) (fs, [])).1), [])).2 =
      []
    rw [hnoop]

/-!
Lemmas about discovery.
-/

theorem ancestors_nil : ancestors [] = [[]] := rfl

theorem ancestors_concat (q : List Nat) (t : Nat) :
    ancestors (q ++ [t]) = (q ++ [t]) :: ancestors q := by
  unfold ancestors
  simp only [List.length_append, List.length_cons, List.length_nil,
    Nat.zero_add]
  rw [List.range_succ_eq_map]
  rw [List.map_cons]
  congr 1
  · rw [Nat.sub_zero]
    have hl : (q ++ [t]).length = q.length + 1 := by simp
    rw [← hl, List.take_length]
  · rw [List.map_map]
    apply List.map_congr_left
    intro k hk
    rw [List.mem_range] at hk
    simp only [Function.comp_apply]
    rw [List.take_append_of_le_length (by omega)]
    congr 1
    omega

theorem find_build_file_aux_spec (assumed : List Nat → Option Nat)
    (hasFile : List Nat → Nat → Bool)
    (parse : List Nat → Nat → Except YabsErr BuildFile)
    (original : List Nat) (dir : List Nat) :
    ∀ fuel, dir.length < fuel →
      find_build_file_aux assumed hasFile parse original fuel dir =
        match (ancestors dir).findSome? (check_dir assumed hasFile) with
        | some df => (parse df.1 df.2).map (fun bf => (df.1, bf))
        | none => Except.error (YabsErr.noAssumedToml original) := by
  induction dir using List.reverseRecOn with
  | nil =>
    intro fuel hf
    obtain ⟨f, rfl⟩ : ∃ f, fuel = f + 1 := ⟨fuel - 1, by omega⟩
    rw [find_build_file_aux, ancestors_nil]
    cases hc : check_dir assumed hasFile [] with
    | some df => simp [hc]
    | none => simp [hc]
  | append_singleton q t ihq =>
    intro fuel hf
    obtain ⟨f, rfl⟩ : ∃ f, fuel = f + 1 := ⟨fuel - 1, by omega⟩
    rw [find_build_file_aux, ancestors_concat]
    cases hc : check_dir assumed hasFile (q ++ [t]) with
    | some df => simp [hc]
    | none =>
      simp only [hc, List.findSome?_cons]
      rw [if_neg (by simp)]
      rw [List.dropLast_concat]
      apply ihq
      simp only [List.length_append, List.length_cons, List.length_nil] at hf
      omega

/-- Claim C9: `find_build_file` walks upward from the starting directory
toward the filesystem root, testing each level for the recognized
project-description filename; at the first match it resolves the project root
to that directory and parses the description there; if the root is exhausted
with no match it fails with a no-build-file error carrying the original
starting directory. -/
theorem find_build_file_discovery (assumed : List Nat → Option Nat)
    (hasFile : List Nat → Nat → Bool)
    (parse : List Nat → Nat → Except YabsErr BuildFile) (dir : List Nat) :
    find_build_file assumed hasFile parse dir =
      match (ancestors dir).findSome? (check_dir assumed hasFile) with
      | some df => (parse df.1 df.2).map (fun bf => (df.1, bf))
      | none => Except.error (YabsErr.noAssumedToml dir) := by
  rw [find_build_file]
  exact find_build_file_aux_spec assumed hasFile parse dir dir
    (dir.length + 1) (by omega)

theorem bool_eq_of_iff {x y : Bool} (h : x = true ↔ y = true) : x = y := by
  cases x <;> cases y <;> simp_all

theorem exclusion_filter_pred (bins : List Binary)
    (lists : Binary → Nat → Bool) (binary : Binary) (src : Nat) :
    ((bins.filter (fun bin => decide (bin.path ≠ binary.path))).any
        (fun b => lists b src) &&
      bins.all (fun b => !lists b src ||
        decide (b ∈ bins.filter (fun bin => decide (bin.path ≠ binary.path))))) =
      exclusivelyOthers bins lists binary src := by
  unfold exclusivelyOthers
  apply bool_eq_of_iff
  simp only [Bool.and_eq_true, List.any_eq_true, List.all_eq_true,
    List.mem_filter, decide_eq_true_eq, Bool.or_eq_true, Bool.not_eq_true',
    Bool.and_eq_true]
  constructor
  · rintro ⟨⟨b, ⟨hb, hbp⟩, hl⟩, hall⟩
    refine ⟨⟨b, hb, hbp, hl⟩, fun b2 hb2 => ?_⟩
    rcases hall b2 hb2 with h0 | ⟨_, hp⟩
    · exact Or.inl h0
    · exact Or.inr hp
  · rintro ⟨⟨b, hb, hbp, hl⟩, hall⟩
    refine ⟨⟨b, ⟨hb, hbp⟩, hl⟩, fun b2 hb2 => ?_⟩
    rcases hall b2 hb2 with h0 | hp
    · exact Or.inl h0
    · exact Or.inr ⟨hb2, hp⟩

/-- Claim C5: when more than one binary is declared, `build_binary` composes
the link object list by excluding the objects exclusively attributable to the
other declared binaries (those whose path differs from the binary being
linked); when exactly one binary is declared, the full unfiltered object list
is passed (the exclusion argument is `None`). -/
theorem build_binary_object_list_spec (bf : BuildFile) (objectOf : Nat → Nat)
    (lists : Binary → Nat → Bool) (binary : Binary) (bins : List Binary)
    (hbins : bf.binaries = some bins) :
    (bins.length = 1 →
      build_binary_object_list bf objectOf lists binary =
        some (bf.project.file_mod_map.map (fun tm => objectOf tm.1.source))) ∧
    (1 < bins.length →
      build_binary_object_list bf objectOf lists binary =
        some ((bf.project.file_mod_map.filter (fun tm =>
          !exclusivelyOthers bins lists binary tm.1.source)).map
            (fun tm => objectOf tm.1.source))) := by
  constructor
  · intro h1
    rw [build_binary_object_list, hbins]
    simp only [h1, if_pos]
    rfl
  · intro hgt
    simp only [build_binary_object_list, hbins]
    rw [if_neg (by omega)]
    rw [object_list_as_string]
    congr 2
    apply List.filter_congr
    intro tm _
    rw [exclusion_filter_pred bins lists binary tm.1.source]

/-- Witness for C5, on the spec's own scenario: binaries A (name 1, sources
10 and 11) and B (name 2, sources 11 and 12); linking A keeps object(10) and
the shared object(11) and excludes object(12). -/
theorem build_binary_object_list_spec_witness :
    build_binary_object_list
        ⟨⟨[(⟨10⟩, 0), (⟨11⟩, 0), (⟨12⟩, 0)]⟩, some [⟨1⟩, ⟨2⟩], none⟩
        (fun s => s + 100)
        (fun b s => (b.name == 1 && (s == 10 || s == 11)) ||
          (b.name == 2 && (s == 11 || s == 12))) ⟨1⟩ =
      some [110, 111] := by
  rw [(build_binary_object_list_spec
      ⟨⟨[(⟨10⟩, 0), (⟨11⟩, 0), (⟨12⟩, 0)]⟩, some [⟨1⟩, ⟨2⟩], none⟩
      (fun s => s + 100)
      (fun b s => (b.name == 1 && (s == 10 || s == 11)) ||
        (b.name == 2 && (s == 11 || s == 12))) ⟨1⟩ [⟨1⟩, ⟨2⟩] rfl).2
    (by decide)]
  rfl
